import Mathlib

/-!
Verification of the httparse request-line/header parsing engine.

The source (src/src/lib.rs) provides: token classification tables and
predicates, the `Status`/`Result` completion model, the `Header` and
`Request` records, and the two skip primitives `skip_empty_lines` and
`skip_spaces` built on the byte-cursor `Bytes` from the `iter` module.
The `iter`, `error` and `macros` modules are not part of the given
sources; their behavior is modelled from the spec where needed
(cursor contract, error reason taxonomy, `byte_map!` / `expect!`
expansion), as is the request-line/header-loop algorithm, whose body
(`Request::parse`) is an empty stub in the given source.

Bytes are modelled as natural numbers < 256; buffers as lists of bytes.
-/

namespace Httparse

/-- Modelled from the spec: the error reason taxonomy of the missing
`error` module. The source itself names only `Error::NewLine`
(malformed line ending); the remaining reasons come from the spec's
failure-code taxonomy (invalid method/URI token, invalid version,
invalid header name token, invalid header value byte, missing colon
after header name, too many headers). -/
inductive Error where
  | NewLine
  | Token
  | Version
  | HeaderName
  | HeaderValue
  | MissingColon
  | TooManyHeaders
  deriving Repr, DecidableEq

/-- `Status<T>`: the result of a successful parse pass.
`Complete` is used when the buffer contained the complete value,
`Partial` when parsing did not reach the end of the expected value
but no invalid data was found. -/
inductive Status (T : Type) where
  | Complete : T → Status T
  | Partial : Status T
  deriving Repr, DecidableEq

/-- `Status::is_complete`. -/
def Status.is_complete {T : Type} (s : Status T) : Bool :=
  match s with
  | Status.Complete _ => true
  | Status.Partial => false

/-- `Status::is_partial`. -/
def Status.is_partial {T : Type} (s : Status T) : Bool :=
  match s with
  | Status.Complete _ => false
  | Status.Partial => true

/-- `Status::unwrap`: returns the carried value for `Complete`; the
panic on `Partial` is modelled as `none`. -/
def Status.unwrap {T : Type} (s : Status T) : Option T :=
  match s with
  | Status.Complete t => some t
  | Status.Partial => none

/-- Modelled from the spec: the byte cursor of the missing `iter`
module — a borrowed byte buffer, a slice mark, and a current read
position. -/
structure Bytes where
  buf : List Nat
  start : Nat
  pos : Nat
  deriving Repr, DecidableEq

/-- Modelled from the spec: `peek` returns the byte at the current
position without moving it, or none at end of buffer. -/
def Bytes.peek (b : Bytes) : Option Nat :=
  b.buf[b.pos]?

/-- Modelled from the spec: `bump`/advance moves the position forward
by one (its precondition, a byte exists here, is established by the
caller via a preceding successful peek). -/
def Bytes.bump (b : Bytes) : Bytes :=
  { b with pos := b.pos + 1 }

/-- A bounds-guarded variant of `bump`: fails (with `none`) instead of
advancing past the end of the buffer.  Used to express that the
source's unguarded advances are in fact always in bounds. -/
def Bytes.bumpChecked (b : Bytes) : Option Bytes :=
  if b.pos < b.buf.length then some (Bytes.bump b) else none

/-- Modelled from the spec: `next` yields the byte at the current
position and advances past it, or yields none at end of buffer. -/
def Bytes.next (b : Bytes) : Option Nat × Bytes :=
  match b.peek with
  | some c => (some c, b.bump)
  | none => (none, b)

/-- Modelled from the spec: `slice`/take-slice returns the byte range
from the last mark to the current position and re-marks at the
current position. -/
def Bytes.slice (b : Bytes) : List Nat × Bytes :=
  ((b.buf.drop b.start).take (b.pos - b.start), { b with start := b.pos })

/-- The `TOKEN_MAP` table: entry `b` is the `byte_map!` pattern
`b'A'..=b'Z' | b'a'..=b'z' | b'0'..=b'9' | b'!' | b'#' | b'$' | b'%'
| b'&' | b'\'' | b'*' | b'+' | b'-' | b'.' | b'^' | b'_' | 0x60 | b'|'
| b'~'` evaluated at `b`. -/
def TOKEN_MAP : List Bool :=
  (List.range 256).map fun b =>
    (65 ≤ b && b ≤ 90) || (97 ≤ b && b ≤ 122) || (48 ≤ b && b ≤ 57) ||
    (b == 33) || (b == 35) || (b == 36) || (b == 37) || (b == 38) ||
    (b == 39) || (b == 42) || (b == 43) || (b == 45) || (b == 46) ||
    (b == 94) || (b == 95) || (b == 96) || (b == 124) || (b == 126)

/-- The `URI_MAP` table: pattern `b'!'..=0x7e | 0x80..=0xFF`. -/
def URI_MAP : List Bool :=
  (List.range 256).map fun b =>
    (33 ≤ b && b ≤ 126) || (128 ≤ b && b ≤ 255)

/-- The `HEADER_VALUE_MAP` table: pattern
`b'\t' | b' '..=0x7e | 0x80..=0xFF`. -/
def HEADER_VALUE_MAP : List Bool :=
  (List.range 256).map fun b =>
    (b == 9) || (32 ≤ b && b ≤ 126) || (128 ≤ b && b ≤ 255)

/-- `is_method_token`: the uppercase fast path, then the table. -/
def is_method_token (b : Nat) : Bool :=
  if 65 ≤ b && b ≤ 90 then true else TOKEN_MAP.getD b false

/-- `is_uri_token`: lookup in `URI_MAP`. -/
def is_uri_token (b : Nat) : Bool :=
  URI_MAP.getD b false

/-- `is_header_name_token`: lookup in `TOKEN_MAP`. -/
def is_header_name_token (b : Nat) : Bool :=
  TOKEN_MAP.getD b false

/-- `is_header_value_token`: lookup in `HEADER_VALUE_MAP`. -/
def is_header_value_token (b : Nat) : Bool :=
  HEADER_VALUE_MAP.getD b false

/-- `skip_empty_lines`: consume leading blank lines (`\n` or `\r\n`).
The `expect!(bytes.next() == b'\n' => Err(Error::NewLine))` expansion
is modelled from the spec: at end of buffer report `Partial`, on a
byte other than `\n` fail with `Error::NewLine`. -/
def skip_empty_lines (b : Bytes) : Except Error (Status Unit × Bytes) :=
  match hp : b.peek with
  | some 13 =>
    match hn : (Bytes.bump b).next with
    | (some 10, b2) => skip_empty_lines b2
    | (some _, _) => Except.error Error.NewLine
    | (none, b2) => Except.ok (Status.Partial, b2)
  | some 10 => skip_empty_lines (Bytes.bump b)
  | some _ => Except.ok (Status.Complete (), (Bytes.slice b).2)
  | none => Except.ok (Status.Partial, b)
termination_by b.buf.length - b.pos
decreasing_by
  · have h1 : b.pos < b.buf.length := by
      by_contra hge
      have hnone : b.buf[b.pos]? = none :=
        List.getElem?_eq_none (Nat.le_of_not_lt hge)
      unfold Bytes.peek at hp
      rw [hnone] at hp
      exact Option.noConfusion hp
    have h2 : (Bytes.bump b).peek = some 10 ∧ b2 = Bytes.bump (Bytes.bump b) := by
      unfold Bytes.next at hn
      cases hq : (Bytes.bump b).peek with
      | some d => rw [hq] at hn; cases hn; exact ⟨rfl, rfl⟩
      | none => rw [hq] at hn; cases hn
    have h3 : (Bytes.bump b).pos < (Bytes.bump b).buf.length := by
      by_contra hge
      have hnone : (Bytes.bump b).buf[(Bytes.bump b).pos]? = none :=
        List.getElem?_eq_none (Nat.le_of_not_lt hge)
      have h4 := h2.1
      unfold Bytes.peek at h4
      rw [hnone] at h4
      exact Option.noConfusion h4
    rw [h2.2]
    simp only [Bytes.bump] at h3 ⊢
    omega
  · have h1 : b.pos < b.buf.length := by
      by_contra hge
      have hnone : b.buf[b.pos]? = none :=
        List.getElem?_eq_none (Nat.le_of_not_lt hge)
      unfold Bytes.peek at hp
      rw [hnone] at hp
      exact Option.noConfusion hp
    simp only [Bytes.bump]
    omega

/-- `skip_spaces`: consume leading space bytes (0x20). -/
def skip_spaces (b : Bytes) : Except Error (Status Unit × Bytes) :=
  match hp : b.peek with
  | some 32 => skip_spaces (Bytes.bump b)
  | some _ => Except.ok (Status.Complete (), (Bytes.slice b).2)
  | none => Except.ok (Status.Partial, b)
termination_by b.buf.length - b.pos
decreasing_by
  have h1 : b.pos < b.buf.length := by
    by_contra hge
    have hnone : b.buf[b.pos]? = none :=
      List.getElem?_eq_none (Nat.le_of_not_lt hge)
    unfold Bytes.peek at hp
    rw [hnone] at hp
    exact Option.noConfusion hp
  simp only [Bytes.bump]
  omega

/-- `skip_empty_lines` with every unguarded cursor advance replaced by
the bounds-guarded `bumpChecked`; `none` signals an out-of-bounds
advance. -/
def skip_empty_lines_checked (b : Bytes) :
    Option (Except Error (Status Unit × Bytes)) :=
  match hp : b.peek with
  | some 13 =>
    match hb : Bytes.bumpChecked b with
    | none => none
    | some b1 =>
      match hn : b1.next with
      | (some 10, b2) => skip_empty_lines_checked b2
      | (some _, _) => some (Except.error Error.NewLine)
      | (none, b2) => some (Except.ok (Status.Partial, b2))
  | some 10 =>
    match hb : Bytes.bumpChecked b with
    | none => none
    | some b1 => skip_empty_lines_checked b1
  | some _ => some (Except.ok (Status.Complete (), (Bytes.slice b).2))
  | none => some (Except.ok (Status.Partial, b))
termination_by b.buf.length - b.pos
decreasing_by
  · have h1 : b.pos < b.buf.length ∧ b1 = Bytes.bump b := by
      unfold Bytes.bumpChecked at hb
      split at hb
      · exact ⟨by assumption, (Option.some.inj hb).symm⟩
      · exact Option.noConfusion hb
    have h2 : b1.peek = some 10 ∧ b2 = Bytes.bump b1 := by
      unfold Bytes.next at hn
      cases hq : b1.peek with
      | some d => rw [hq] at hn; cases hn; exact ⟨rfl, rfl⟩
      | none => rw [hq] at hn; cases hn
    have h3 : b1.pos < b1.buf.length := by
      by_contra hge
      have hnone : b1.buf[b1.pos]? = none :=
        List.getElem?_eq_none (Nat.le_of_not_lt hge)
      have h4 := h2.1
      unfold Bytes.peek at h4
      rw [hnone] at h4
      exact Option.noConfusion h4
    rw [h2.2, h1.2]
    rw [h1.2] at h3
    simp only [Bytes.bump] at h3 ⊢
    omega
  · have h1 : b.pos < b.buf.length ∧ b1 = Bytes.bump b := by
      unfold Bytes.bumpChecked at hb
      split at hb
      · exact ⟨by assumption, (Option.some.inj hb).symm⟩
      · exact Option.noConfusion hb
    rw [h1.2]
    simp only [Bytes.bump]
    omega

/-- `skip_spaces` with the unguarded cursor advance replaced by the
bounds-guarded `bumpChecked`; `none` signals an out-of-bounds
advance. -/
def skip_spaces_checked (b : Bytes) :
    Option (Except Error (Status Unit × Bytes)) :=
  match hp : b.peek with
  | some 32 =>
    match hb : Bytes.bumpChecked b with
    | none => none
    | some b1 => skip_spaces_checked b1
  | some _ => some (Except.ok (Status.Complete (), (Bytes.slice b).2))
  | none => some (Except.ok (Status.Partial, b))
termination_by b.buf.length - b.pos
decreasing_by
  have h1 : b.pos < b.buf.length ∧ b1 = Bytes.bump b := by
    unfold Bytes.bumpChecked at hb
    split at hb
    · exact ⟨by assumption, (Option.some.inj hb).symm⟩
    · exact Option.noConfusion hb
  rw [h1.2]
  simp only [Bytes.bump]
  omega

/-- Length of the maximal leading run of line terminators: a lone
`\n` (10) counts one byte, a `\r\n` (13, 10) pair counts two. -/
def lineTermRun : List Nat → Nat
  | 13 :: 10 :: rest => lineTermRun rest + 2
  | 10 :: rest => lineTermRun rest + 1
  | _ => 0

/-- Length of the maximal leading run of space bytes (0x20). -/
def spaceRun : List Nat → Nat
  | 32 :: rest => spaceRun rest + 1
  | _ => 0

/-- A list of bytes that is a (possibly empty) sequence of valid line
terminators: each is a lone `\n` or a `\r\n` pair. -/
inductive TermRun : List Nat → Prop where
  | nil : TermRun []
  | lf : ∀ {r : List Nat}, TermRun r → TermRun (10 :: r)
  | crlf : ∀ {r : List Nat}, TermRun r → TermRun (13 :: 10 :: r)

/-- Modelled from the spec: the general token-scanning pattern —
consume while the classification holds; the first non-matching byte
ends the token (not consumed) and is returned with the remainder; if
the buffer ends before a non-matching byte is seen, report
`Partial`. -/
def spanWhile (p : Nat → Bool) : List Nat → Status (List Nat × List Nat)
  | [] => Status.Partial
  | c :: rest =>
    if p c then
      match spanWhile p rest with
      | Status.Complete (tok, r) => Status.Complete (c :: tok, r)
      | Status.Partial => Status.Partial
    else Status.Complete ([], c :: rest)

/-- Modelled from the spec: expect the given literal bytes (used for
`HTTP/1.`); a mismatch is a definitive invalid-version failure, end of
buffer mid-literal is `Partial`. -/
def expectBytes : List Nat → List Nat → Except Error (Status (List Nat))
  | [], rest => Except.ok (Status.Complete rest)
  | _ :: _, [] => Except.ok Status.Partial
  | e :: es, c :: cs =>
    if c = e then expectBytes es cs else Except.error Error.Version

/-- Modelled from the spec: a line terminator — `\r\n` or bare `\n`; a
bare `\r` not followed by `\n` is a definitive bad-line-ending
failure; a `\r` at the end of the buffer is `Partial`. -/
def parseNewline : List Nat → Except Error (Status (List Nat))
  | [] => Except.ok Status.Partial
  | 10 :: r => Except.ok (Status.Complete r)
  | 13 :: [] => Except.ok Status.Partial
  | 13 :: 10 :: r => Except.ok (Status.Complete r)
  | 13 :: _ :: _ => Except.error Error.NewLine
  | _ :: _ => Except.error Error.NewLine

/-- The `Request` record: optional method, path and minor version,
plus the header collection (name/value byte spans) populated so far. -/
structure ParsedRequest where
  method : Option (List Nat)
  path : Option (List Nat)
  version : Option Nat
  headers : List (List Nat × List Nat)
  deriving Repr, DecidableEq

/-- `Request::new`: all optional fields start unset, no headers. -/
def emptyRequest : ParsedRequest :=
  { method := none, path := none, version := none, headers := [] }

/-- Modelled from the spec: the header loop of §4.5 — first check for
a blank line ending the header block; otherwise scan a header name
(nonempty, else invalid-header-name), require `:`, skip spaces, scan
header-value bytes (a zero-length value is legal), require a line
terminator, and append the record, failing with too-many-headers when
the caller-supplied capacity is exhausted.  Returns the outcome
(carrying the unconsumed remainder on `Complete`) and the headers
recorded so far. -/
def parse_headers (capacity : Nat) (acc : List (List Nat × List Nat))
    (rest : List Nat) :
    Except Error (Status (List Nat)) × List (List Nat × List Nat) :=
  match rest with
  | [] => (Except.ok Status.Partial, acc)
  | 10 :: r => (Except.ok (Status.Complete r), acc)
  | 13 :: [] => (Except.ok Status.Partial, acc)
  | 13 :: 10 :: r => (Except.ok (Status.Complete r), acc)
  | 13 :: _ :: _ => (Except.error Error.NewLine, acc)
  | c :: r =>
    match hname : spanWhile is_header_name_token (c :: r) with
    | Status.Partial => (Except.ok Status.Partial, acc)
    | Status.Complete ([], _) => (Except.error Error.HeaderName, acc)
    | Status.Complete (n0 :: ntl, r1) =>
      match h1 : r1 with
      | [] => (Except.ok Status.Partial, acc)
      | 58 :: r2 =>
        match hsp : spanWhile (fun b => b == 32) r2 with
        | Status.Partial => (Except.ok Status.Partial, acc)
        | Status.Complete (sp, r3) =>
          match hval : spanWhile is_header_value_token r3 with
          | Status.Partial => (Except.ok Status.Partial, acc)
          | Status.Complete (val, r4) =>
            match h4 : r4 with
            | [] => (Except.ok Status.Partial, acc)
            | 10 :: r5 =>
              if acc.length < capacity then
                parse_headers capacity (acc ++ [(n0 :: ntl, val)]) r5
              else (Except.error Error.TooManyHeaders, acc)
            | 13 :: [] => (Except.ok Status.Partial, acc)
            | 13 :: 10 :: r5 =>
              if acc.length < capacity then
                parse_headers capacity (acc ++ [(n0 :: ntl, val)]) r5
              else (Except.error Error.TooManyHeaders, acc)
            | 13 :: _ :: _ => (Except.error Error.NewLine, acc)
            | _ :: _ => (Except.error Error.HeaderValue, acc)
      | _ :: _ => (Except.error Error.MissingColon, acc)
termination_by rest.length
decreasing_by
  all_goals
    have key : ∀ (p : Nat → Bool) (l t u : List Nat),
        spanWhile p l = Status.Complete (t, u) →
        l.length = t.length + u.length := by
      intro p l
      induction l with
      | nil => intro t u h; simp [spanWhile] at h
      | cons a l ih =>
        intro t u h
        simp only [spanWhile] at h
        by_cases hp : p a
        · rw [if_pos hp] at h
          cases hrec : spanWhile p l with
          | Partial => rw [hrec] at h; exact Status.noConfusion h
          | Complete pr =>
            obtain ⟨t', u'⟩ := pr
            rw [hrec] at h
            cases h
            have := ih t' u hrec
            simp only [List.length_cons]
            omega
        · rw [if_neg hp] at h
          cases h
          simp
  all_goals
    have k1 := key _ _ _ _ hname
    have k2 := key _ _ _ _ hsp
    have k3 := key _ _ _ _ hval
    subst h1
    subst h4
    simp only [List.length_cons] at k1 k2 k3 ⊢
    omega

/-- Modelled from the spec: `parse_request` — skip leading blank
lines, then method (token bytes, nonempty, terminated by a single
space), path (URI bytes, nonempty, terminated by a single space),
version (`HTTP/1.` then digit 0 or 1, then a line terminator), then
the header loop; `Complete` carries the count of bytes consumed from
the start of the buffer.  The second component is the `Request`
populated as far as parsing progressed. -/
def parse_request (buf : List Nat) (capacity : Nat) :
    Except Error (Status Nat) × ParsedRequest :=
  match skip_empty_lines { buf := buf, start := 0, pos := 0 } with
  | Except.error e => (Except.error e, emptyRequest)
  | Except.ok (Status.Partial, _) => (Except.ok Status.Partial, emptyRequest)
  | Except.ok (Status.Complete _, st) =>
    match spanWhile is_method_token (buf.drop st.pos) with
    | Status.Partial => (Except.ok Status.Partial, emptyRequest)
    | Status.Complete ([], _) => (Except.error Error.Token, emptyRequest)
    | Status.Complete (m0 :: mtl, r1) =>
      match r1 with
      | 32 :: r2 =>
        let req1 := { emptyRequest with method := some (m0 :: mtl) }
        match spanWhile is_uri_token r2 with
        | Status.Partial => (Except.ok Status.Partial, req1)
        | Status.Complete ([], _) => (Except.error Error.Token, req1)
        | Status.Complete (p0 :: ptl, r3) =>
          match r3 with
          | 32 :: r4 =>
            let req2 := { req1 with path := some (p0 :: ptl) }
            match expectBytes [72, 84, 84, 80, 47, 49, 46] r4 with
            | Except.error e => (Except.error e, req2)
            | Except.ok Status.Partial => (Except.ok Status.Partial, req2)
            | Except.ok (Status.Complete r5) =>
              match r5 with
              | [] => (Except.ok Status.Partial, req2)
              | d :: r6 =>
                if hd : d = 48 ∨ d = 49 then
                  match parseNewline r6 with
                  | Except.error e => (Except.error e, req2)
                  | Except.ok Status.Partial => (Except.ok Status.Partial, req2)
                  | Except.ok (Status.Complete r7) =>
                    let req3 := { req2 with version := some (d - 48) }
                    match parse_headers capacity [] r7 with
                    | (Except.error e, hs) =>
                        (Except.error e, { req3 with headers := hs })
                    | (Except.ok Status.Partial, hs) =>
                        (Except.ok Status.Partial, { req3 with headers := hs })
                    | (Except.ok (Status.Complete r8), hs) =>
                        (Except.ok (Status.Complete (buf.length - r8.length)),
                         { req3 with headers := hs })
                else (Except.error Error.Version, req2)
          | _ => (Except.error Error.Token, req1)
      | _ => (Except.error Error.Token, emptyRequest)

theorem Bytes.peek_lt {b : Bytes} {c : Nat} (h : b.peek = some c) :
    b.pos < b.buf.length := by
  by_contra hge
  have hnone : b.buf[b.pos]? = none :=
    List.getElem?_eq_none (Nat.le_of_not_lt hge)
  unfold Bytes.peek at h
  rw [hnone] at h
  exact Option.noConfusion h

theorem Bytes.next_some {b b' : Bytes} {c : Nat}
    (h : b.next = (some c, b')) : b.peek = some c ∧ b' = Bytes.bump b := by
  unfold Bytes.next at h
  cases hp : b.peek with
  | some d => rw [hp] at h; cases h; exact ⟨rfl, rfl⟩
  | none => rw [hp] at h; cases h

theorem Bytes.next_none {b b' : Bytes} (h : b.next = (none, b')) :
    b.peek = none ∧ b' = b := by
  unfold Bytes.next at h
  cases hp : b.peek with
  | some d => rw [hp] at h; cases h
  | none => rw [hp] at h; cases h; exact ⟨rfl, rfl⟩

theorem Bytes.drop_peek {b : Bytes} {c : Nat} (h : b.peek = some c) :
    b.buf.drop b.pos = c :: b.buf.drop (b.pos + 1) := by
  have hlt := Bytes.peek_lt h
  have h2 := List.drop_eq_getElem_cons hlt
  have h3 : b.buf[b.pos] = c := by
    have h4 := List.getElem?_eq_getElem hlt
    unfold Bytes.peek at h
    rw [h4] at h
    exact Option.some.inj h
  rw [h2, h3]

theorem Bytes.peek_none_le {b : Bytes} (h : b.peek = none) :
    b.buf.length ≤ b.pos := by
  by_contra hlt
  have h2 := List.getElem?_eq_getElem (Nat.lt_of_not_le hlt)
  unfold Bytes.peek at h
  rw [h2] at h
  exact Option.noConfusion h

theorem Bytes.drop_none {b : Bytes} (h : b.peek = none) :
    b.buf.drop b.pos = [] :=
  List.drop_eq_nil_of_le (Bytes.peek_none_le h)

theorem skip_spaces_step_space {x : Bytes} (hp : x.peek = some 32) :
    skip_spaces x = skip_spaces (Bytes.bump x) := by
  rw [skip_spaces]
  split
  · rfl
  · rename_i c hc hpeek
    rw [hp] at hpeek
    cases hpeek
    exact absurd rfl hc
  · rename_i hpeek
    rw [hp] at hpeek
    cases hpeek

theorem skip_spaces_step_other {x : Bytes} {c : Nat} (hp : x.peek = some c)
    (hc : c ≠ 32) :
    skip_spaces x = Except.ok (Status.Complete (), (Bytes.slice x).2) := by
  rw [skip_spaces]
  split
  · rename_i hpeek
    rw [hp] at hpeek
    cases hpeek
    exact absurd rfl hc
  · rfl
  · rename_i hpeek
    rw [hp] at hpeek
    cases hpeek

theorem skip_spaces_step_none {x : Bytes} (hp : x.peek = none) :
    skip_spaces x = Except.ok (Status.Partial, x) := by
  rw [skip_spaces]
  split
  · rename_i hpeek
    rw [hp] at hpeek
    cases hpeek
  · rename_i c hc hpeek
    rw [hp] at hpeek
    cases hpeek
  · rfl

theorem skip_el_step_crlf {x b2 : Bytes} (hp : x.peek = some 13)
    (hn : (Bytes.bump x).next = (some 10, b2)) :
    skip_empty_lines x = skip_empty_lines b2 := by
  rw [skip_empty_lines]
  split
  · split
    · rename_i b2' hnext
      rw [hn] at hnext
      cases hnext
      rfl
    · rename_i c snd hc hnext
      rw [hn] at hnext
      cases hnext
      exact absurd rfl hc
    · rename_i b2' hnext
      rw [hn] at hnext
      cases hnext
  · rename_i hpeek
    rw [hp] at hpeek
    cases hpeek
  · rename_i c h13 h10 hpeek
    rw [hp] at hpeek
    cases hpeek
    exact absurd rfl h13
  · rename_i hpeek
    rw [hp] at hpeek
    cases hpeek

theorem skip_el_step_cr_bad {x b' : Bytes} {c : Nat} (hp : x.peek = some 13)
    (hn : (Bytes.bump x).next = (some c, b')) (hc : c ≠ 10) :
    skip_empty_lines x = Except.error Error.NewLine := by
  rw [skip_empty_lines]
  split
  · split
    · rename_i b2' hnext
      rw [hn] at hnext
      cases hnext
      exact absurd rfl hc
    · rfl
    · rename_i b2' hnext
      rw [hn] at hnext
      cases hnext
  · rename_i hpeek
    rw [hp] at hpeek
    cases hpeek
  · rename_i d h13 h10 hpeek
    rw [hp] at hpeek
    cases hpeek
    exact absurd rfl h13
  · rename_i hpeek
    rw [hp] at hpeek
    cases hpeek

theorem skip_el_step_cr_end {x b2 : Bytes} (hp : x.peek = some 13)
    (hn : (Bytes.bump x).next = (none, b2)) :
    skip_empty_lines x = Except.ok (Status.Partial, b2) := by
  rw [skip_empty_lines]
  split
  · split
    · rename_i b2' hnext
      rw [hn] at hnext
      cases hnext
    · rename_i c snd hc hnext
      rw [hn] at hnext
      cases hnext
    · rename_i b2' hnext
      rw [hn] at hnext
      cases hnext
      rfl
  · rename_i hpeek
    rw [hp] at hpeek
    cases hpeek
  · rename_i c h13 h10 hpeek
    rw [hp] at hpeek
    cases hpeek
    exact absurd rfl h13
  · rename_i hpeek
    rw [hp] at hpeek
    cases hpeek

theorem skip_el_step_lf {x : Bytes} (hp : x.peek = some 10) :
    skip_empty_lines x = skip_empty_lines (Bytes.bump x) := by
  rw [skip_empty_lines]
  split
  · rename_i hpeek
    rw [hp] at hpeek
    cases hpeek
  · rfl
  · rename_i c h13 h10 hpeek
    rw [hp] at hpeek
    cases hpeek
    exact absurd rfl h10
  · rename_i hpeek
    rw [hp] at hpeek
    cases hpeek

theorem skip_el_step_other {x : Bytes} {c : Nat} (hp : x.peek = some c)
    (h13 : c ≠ 13) (h10 : c ≠ 10) :
    skip_empty_lines x = Except.ok (Status.Complete (), (Bytes.slice x).2) := by
  rw [skip_empty_lines]
  split
  · rename_i hpeek
    rw [hp] at hpeek
    cases hpeek
    exact absurd rfl h13
  · rename_i hpeek
    rw [hp] at hpeek
    cases hpeek
    exact absurd rfl h10
  · rfl
  · rename_i hpeek
    rw [hp] at hpeek
    cases hpeek

theorem skip_el_step_none {x : Bytes} (hp : x.peek = none) :
    skip_empty_lines x = Except.ok (Status.Partial, x) := by
  rw [skip_empty_lines]
  split
  · rename_i hpeek
    rw [hp] at hpeek
    cases hpeek
  · rename_i hpeek
    rw [hp] at hpeek
    cases hpeek
  · rename_i c h13 h10 hpeek
    rw [hp] at hpeek
    cases hpeek
  · rfl

theorem spaceRun_cons (r : List Nat) : spaceRun (32 :: r) = spaceRun r + 1 :=
  rfl

theorem spaceRun_zero {t : List Nat} (h : ∀ rest, t = 32 :: rest → False) :
    spaceRun t = 0 := by
  rw [spaceRun.eq_def]
  split
  · rename_i rest
    exact absurd rfl (h rest)
  · rfl

theorem spaceRun_other {c : Nat} (r : List Nat) (hc : c ≠ 32) :
    spaceRun (c :: r) = 0 :=
  spaceRun_zero (fun rest heq => hc (List.cons.injEq _ _ _ _ ▸ heq).1)

theorem skip_spaces_complete :
    ∀ (b : Bytes), b.pos ≤ b.buf.length →
    ∀ (c : Nat) (t : List Nat),
      (b.buf.drop b.pos).drop (spaceRun (b.buf.drop b.pos)) = c :: t →
      c ≠ 32 →
      skip_spaces b = Except.ok (Status.Complete (),
        { buf := b.buf, start := b.pos + spaceRun (b.buf.drop b.pos),
          pos := b.pos + spaceRun (b.buf.drop b.pos) }) := by
  intro b
  induction b using skip_spaces.induct with
  | case1 x hp ih =>
    intro hlen c t hdrop hc
    have hd := Bytes.drop_peek hp
    have hlt := Bytes.peek_lt hp
    have hlen2 : (Bytes.bump x).pos ≤ (Bytes.bump x).buf.length := by
      simp only [Bytes.bump]
      omega
    have hrun : spaceRun (x.buf.drop x.pos) =
        spaceRun (x.buf.drop (x.pos + 1)) + 1 := by
      rw [hd]
      rfl
    have hdrop' : ((Bytes.bump x).buf.drop (Bytes.bump x).pos).drop
        (spaceRun ((Bytes.bump x).buf.drop (Bytes.bump x).pos)) = c :: t := by
      simp only [Bytes.bump]
      rw [hd] at hdrop
      rw [spaceRun_cons, List.drop_succ_cons] at hdrop
      exact hdrop
    have hres := ih hlen2 c t hdrop' hc
    rw [skip_spaces_step_space hp, hres]
    simp only [Bytes.bump]
    rw [hrun]
    have : x.pos + (spaceRun (x.buf.drop (x.pos + 1)) + 1) =
        x.pos + 1 + spaceRun (x.buf.drop (x.pos + 1)) := by omega
    rw [this]
  | case2 x val hv hp =>
    intro hlen c t hdrop hc
    have hd := Bytes.drop_peek hp
    have hval : val ≠ 32 := fun h => hv h
    rw [hd, spaceRun_other _ hval, List.drop_zero] at hdrop
    rw [skip_spaces_step_other hp hval, hd, spaceRun_other _ hval]
    simp [Bytes.slice]
  | case3 x hp =>
    intro hlen c t hdrop hc
    have hd := Bytes.drop_none hp
    rw [hd] at hdrop
    simp at hdrop

theorem skip_spaces_partial :
    ∀ (b : Bytes), b.pos ≤ b.buf.length →
      (b.buf.drop b.pos).drop (spaceRun (b.buf.drop b.pos)) = [] →
      skip_spaces b = Except.ok (Status.Partial,
        { buf := b.buf, start := b.start, pos := b.buf.length }) := by
  intro b
  induction b using skip_spaces.induct with
  | case1 x hp ih =>
    intro hlen hdrop
    have hd := Bytes.drop_peek hp
    have hlt := Bytes.peek_lt hp
    have hlen2 : (Bytes.bump x).pos ≤ (Bytes.bump x).buf.length := by
      simp only [Bytes.bump]
      omega
    have hrun : spaceRun (x.buf.drop x.pos) =
        spaceRun (x.buf.drop (x.pos + 1)) + 1 := by
      rw [hd]
      rfl
    have hdrop' : ((Bytes.bump x).buf.drop (Bytes.bump x).pos).drop
        (spaceRun ((Bytes.bump x).buf.drop (Bytes.bump x).pos)) = [] := by
      simp only [Bytes.bump]
      rw [hd] at hdrop
      rw [spaceRun_cons, List.drop_succ_cons] at hdrop
      exact hdrop
    have hres := ih hlen2 hdrop'
    rw [skip_spaces_step_space hp, hres]
    simp only [Bytes.bump]
  | case2 x val hv hp =>
    intro hlen hdrop
    have hd := Bytes.drop_peek hp
    have hval : val ≠ 32 := fun h => hv h
    rw [hd, spaceRun_other _ hval, List.drop_zero] at hdrop
    exact absurd hdrop (List.cons_ne_nil _ _)
  | case3 x hp =>
    intro hlen hdrop
    have hpl := Bytes.peek_none_le hp
    have heq : x.pos = x.buf.length := le_antisymm hlen hpl
    rw [skip_spaces_step_none hp]
    cases x with
    | mk bf st ps => simp_all

theorem skip_spaces_no_error (b : Bytes) :
    ∀ e : Error, skip_spaces b ≠ Except.error e := by
  induction b using skip_spaces.induct with
  | case1 x hp ih =>
    rw [skip_spaces_step_space hp]
    exact ih
  | case2 x val hv hp =>
    rw [skip_spaces_step_other hp (fun h => hv h)]
    exact fun e h => Except.noConfusion h
  | case3 x hp =>
    rw [skip_spaces_step_none hp]
    exact fun e h => Except.noConfusion h

/-- C4: `skip_spaces` consumes the maximal run of space bytes at the
cursor: on a following non-space byte it reports `Complete` with the
cursor on that byte and the slice re-marked there; at end of buffer
it reports `Partial`; it never returns a definitive failure. -/
theorem skip_spaces_spec (b : Bytes) (hlen : b.pos ≤ b.buf.length) :
    (∀ c t, (b.buf.drop b.pos).drop (spaceRun (b.buf.drop b.pos)) = c :: t →
      c ≠ 32 →
      skip_spaces b = Except.ok (Status.Complete (),
        { buf := b.buf, start := b.pos + spaceRun (b.buf.drop b.pos),
          pos := b.pos + spaceRun (b.buf.drop b.pos) })) ∧
    ((b.buf.drop b.pos).drop (spaceRun (b.buf.drop b.pos)) = [] →
      skip_spaces b = Except.ok (Status.Partial,
        { buf := b.buf, start := b.start, pos := b.buf.length })) ∧
    (∀ e, skip_spaces b ≠ Except.error e) :=
  ⟨skip_spaces_complete b hlen, skip_spaces_partial b hlen,
   skip_spaces_no_error b⟩

/-- Witness for C4 at the buffer `[0x20, 'A']`: one space is consumed,
the cursor stops on `A` at position 1 and the slice is re-marked
there. -/
theorem skip_spaces_spec_witness :
    skip_spaces { buf := [32, 65], start := 0, pos := 0 } =
      Except.ok (Status.Complete (),
        { buf := [32, 65], start := 1, pos := 1 }) := by
  have h := (skip_spaces_spec { buf := [32, 65], start := 0, pos := 0 }
    (by decide)).1 65 [] (by decide) (by decide)
  exact h.trans (by rfl)

theorem lineTermRun_crlf (r : List Nat) :
    lineTermRun (13 :: 10 :: r) = lineTermRun r + 2 :=
  rfl

theorem lineTermRun_lf (r : List Nat) :
    lineTermRun (10 :: r) = lineTermRun r + 1 :=
  rfl

theorem lineTermRun_zero {t : List Nat}
    (h2 : ∀ rest, t = 13 :: 10 :: rest → False)
    (h1 : ∀ rest, t = 10 :: rest → False) :
    lineTermRun t = 0 := by
  rw [lineTermRun.eq_def]
  split
  · rename_i rest
    exact absurd rfl (h2 rest)
  · rename_i rest
    exact absurd rfl (h1 rest)
  · rfl

theorem lineTermRun_other {c : Nat} (r : List Nat) (h13 : c ≠ 13)
    (h10 : c ≠ 10) : lineTermRun (c :: r) = 0 := by
  apply lineTermRun_zero
  · intro rest heq
    exact h13 (List.cons.injEq _ _ _ _ ▸ heq).1
  · intro rest heq
    exact h10 (List.cons.injEq _ _ _ _ ▸ heq).1

theorem lineTermRun_cr_not_lf {d : Nat} (r : List Nat) (hd : d ≠ 10) :
    lineTermRun (13 :: d :: r) = 0 := by
  apply lineTermRun_zero
  · intro rest heq
    have h2 := (List.cons.injEq _ _ _ _ ▸ heq).2
    exact hd (List.cons.injEq _ _ _ _ ▸ h2).1
  · intro rest heq
    exact absurd (List.cons.injEq _ _ _ _ ▸ heq).1 (by omega)

theorem lineTermRun_cr_nil : lineTermRun [13] = 0 :=
  rfl

theorem skip_el_complete :
    ∀ (b : Bytes), b.pos ≤ b.buf.length →
    ∀ (c : Nat) (t : List Nat),
      (b.buf.drop b.pos).drop (lineTermRun (b.buf.drop b.pos)) = c :: t →
      c ≠ 13 → c ≠ 10 →
      skip_empty_lines b = Except.ok (Status.Complete (),
        { buf := b.buf, start := b.pos + lineTermRun (b.buf.drop b.pos),
          pos := b.pos + lineTermRun (b.buf.drop b.pos) }) := by
  intro b
  induction b using skip_empty_lines.induct with
  | case1 x hp b2 hn ih =>
    intro hlen c t hdrop h13 h10
    obtain ⟨hp2, hb2⟩ := Bytes.next_some hn
    subst hb2
    have hd1 := Bytes.drop_peek hp
    have hd2 : x.buf.drop (x.pos + 1) = 10 :: x.buf.drop (x.pos + 2) := by
      have h := Bytes.drop_peek hp2
      simpa [Bytes.bump] using h
    have hd : x.buf.drop x.pos = 13 :: 10 :: x.buf.drop (x.pos + 2) := by
      rw [hd1, hd2]
    have hrun : lineTermRun (x.buf.drop x.pos) =
        lineTermRun (x.buf.drop (x.pos + 2)) + 2 := by
      rw [hd, lineTermRun_crlf]
    have hlt2 : x.pos + 1 < x.buf.length := by
      have h := Bytes.peek_lt hp2
      simpa [Bytes.bump] using h
    have hlen2 : (Bytes.bump (Bytes.bump x)).pos ≤
        (Bytes.bump (Bytes.bump x)).buf.length := by
      simp only [Bytes.bump]
      omega
    have hdrop2 : ((Bytes.bump (Bytes.bump x)).buf.drop
          (Bytes.bump (Bytes.bump x)).pos).drop
        (lineTermRun ((Bytes.bump (Bytes.bump x)).buf.drop
          (Bytes.bump (Bytes.bump x)).pos)) = c :: t := by
      simp only [Bytes.bump]
      rw [hd, lineTermRun_crlf, List.drop_succ_cons, List.drop_succ_cons]
        at hdrop
      exact hdrop
    have hres := ih hlen2 c t hdrop2 h13 h10
    rw [skip_el_step_crlf hp hn, hres, hrun]
    simp only [Bytes.bump]
    have harith : x.pos + 1 + 1 + lineTermRun (x.buf.drop (x.pos + 1 + 1)) =
        x.pos + (lineTermRun (x.buf.drop (x.pos + 2)) + 2) := by
      have heq : x.buf.drop (x.pos + 1 + 1) = x.buf.drop (x.pos + 2) := rfl
      rw [heq]
      omega
    rw [harith]
  | case2 x hp val snd hval hn =>
    intro hlen c t hdrop h13 h10
    obtain ⟨hp2, hb2⟩ := Bytes.next_some hn
    have hd1 := Bytes.drop_peek hp
    have hd2 : x.buf.drop (x.pos + 1) = val :: x.buf.drop (x.pos + 2) := by
      have h := Bytes.drop_peek hp2
      simpa [Bytes.bump] using h
    have hd : x.buf.drop x.pos = 13 :: val :: x.buf.drop (x.pos + 2) := by
      rw [hd1, hd2]
    rw [hd, lineTermRun_cr_not_lf _ (fun h => hval h), List.drop_zero]
      at hdrop
    have hc13 : c = 13 := ((List.cons.injEq _ _ _ _ ▸ hdrop).1).symm
    exact absurd hc13 h13
  | case3 x hp b2 hn =>
    intro hlen c t hdrop h13 h10
    obtain ⟨hp2, hb2⟩ := Bytes.next_none hn
    have hd1 := Bytes.drop_peek hp
    have hd2 : x.buf.drop (x.pos + 1) = [] := by
      have h := Bytes.drop_none hp2
      simpa [Bytes.bump] using h
    have hd : x.buf.drop x.pos = [13] := by
      rw [hd1, hd2]
    rw [hd, lineTermRun_cr_nil, List.drop_zero] at hdrop
    have hc13 : c = 13 := ((List.cons.injEq _ _ _ _ ▸ hdrop).1).symm
    exact absurd hc13 h13
  | case4 x hp ih =>
    intro hlen c t hdrop h13 h10
    have hd := Bytes.drop_peek hp
    have hlt := Bytes.peek_lt hp
    have hrun : lineTermRun (x.buf.drop x.pos) =
        lineTermRun (x.buf.drop (x.pos + 1)) + 1 := by
      rw [hd, lineTermRun_lf]
    have hlen2 : (Bytes.bump x).pos ≤ (Bytes.bump x).buf.length := by
      simp only [Bytes.bump]
      omega
    have hdrop2 : ((Bytes.bump x).buf.drop (Bytes.bump x).pos).drop
        (lineTermRun ((Bytes.bump x).buf.drop (Bytes.bump x).pos)) =
        c :: t := by
      simp only [Bytes.bump]
      rw [hd, lineTermRun_lf, List.drop_succ_cons] at hdrop
      exact hdrop
    have hres := ih hlen2 c t hdrop2 h13 h10
    rw [skip_el_step_lf hp, hres, hrun]
    simp only [Bytes.bump]
    have harith : x.pos + 1 + lineTermRun (x.buf.drop (x.pos + 1)) =
        x.pos + (lineTermRun (x.buf.drop (x.pos + 1)) + 1) := by
      omega
    rw [harith]
  | case5 x val h13v h10v hp =>
    intro hlen c t hdrop h13 h10
    have hd := Bytes.drop_peek hp
    have hv13 : val ≠ 13 := fun h => h13v h
    have hv10 : val ≠ 10 := fun h => h10v h
    rw [hd, lineTermRun_other _ hv13 hv10, List.drop_zero] at hdrop
    rw [skip_el_step_other hp hv13 hv10, hd, lineTermRun_other _ hv13 hv10]
    simp [Bytes.slice]
  | case6 x hp =>
    intro hlen c t hdrop h13 h10
    have hd := Bytes.drop_none hp
    rw [hd] at hdrop
    simp at hdrop

theorem skip_el_partial :
    ∀ (b : Bytes), b.pos ≤ b.buf.length →
      ((b.buf.drop b.pos).drop (lineTermRun (b.buf.drop b.pos)) = [] ∨
       (b.buf.drop b.pos).drop (lineTermRun (b.buf.drop b.pos)) = [13]) →
      skip_empty_lines b = Except.ok (Status.Partial,
        { buf := b.buf, start := b.start, pos := b.buf.length }) := by
  intro b
  induction b using skip_empty_lines.induct with
  | case1 x hp b2 hn ih =>
    intro hlen hdrop
    obtain ⟨hp2, hb2⟩ := Bytes.next_some hn
    subst hb2
    have hd1 := Bytes.drop_peek hp
    have hd2 : x.buf.drop (x.pos + 1) = 10 :: x.buf.drop (x.pos + 2) := by
      have h := Bytes.drop_peek hp2
      simpa [Bytes.bump] using h
    have hd : x.buf.drop x.pos = 13 :: 10 :: x.buf.drop (x.pos + 2) := by
      rw [hd1, hd2]
    have hlt2 : x.pos + 1 < x.buf.length := by
      have h := Bytes.peek_lt hp2
      simpa [Bytes.bump] using h
    have hlen2 : (Bytes.bump (Bytes.bump x)).pos ≤
        (Bytes.bump (Bytes.bump x)).buf.length := by
      simp only [Bytes.bump]
      omega
    have hdrop2 : ((Bytes.bump (Bytes.bump x)).buf.drop
          (Bytes.bump (Bytes.bump x)).pos).drop
        (lineTermRun ((Bytes.bump (Bytes.bump x)).buf.drop
          (Bytes.bump (Bytes.bump x)).pos)) = [] ∨
        ((Bytes.bump (Bytes.bump x)).buf.drop
          (Bytes.bump (Bytes.bump x)).pos).drop
        (lineTermRun ((Bytes.bump (Bytes.bump x)).buf.drop
          (Bytes.bump (Bytes.bump x)).pos)) = [13] := by
      simp only [Bytes.bump]
      rw [hd, lineTermRun_crlf, List.drop_succ_cons, List.drop_succ_cons]
        at hdrop
      exact hdrop
    have hres := ih hlen2 hdrop2
    rw [skip_el_step_crlf hp hn, hres]
    simp only [Bytes.bump]
  | case2 x hp val snd hval hn =>
    intro hlen hdrop
    obtain ⟨hp2, hb2⟩ := Bytes.next_some hn
    have hd1 := Bytes.drop_peek hp
    have hd2 : x.buf.drop (x.pos + 1) = val :: x.buf.drop (x.pos + 2) := by
      have h := Bytes.drop_peek hp2
      simpa [Bytes.bump] using h
    have hd : x.buf.drop x.pos = 13 :: val :: x.buf.drop (x.pos + 2) := by
      rw [hd1, hd2]
    rw [hd, lineTermRun_cr_not_lf _ (fun h => hval h), List.drop_zero]
      at hdrop
    rcases hdrop with hdrop | hdrop
    · exact absurd hdrop (List.cons_ne_nil _ _)
    · have h2 := (List.cons.injEq _ _ _ _ ▸ hdrop).2
      exact absurd h2 (List.cons_ne_nil _ _)
  | case3 x hp b2 hn =>
    intro hlen hdrop
    obtain ⟨hp2, hb2⟩ := Bytes.next_none hn
    have hd1 := Bytes.drop_peek hp
    have hd2 : x.buf.drop (x.pos + 1) = [] := by
      have h := Bytes.drop_none hp2
      simpa [Bytes.bump] using h
    have hlt := Bytes.peek_lt hp
    have hge : x.buf.length ≤ x.pos + 1 := by
      have h := Bytes.peek_none_le hp2
      simpa [Bytes.bump] using h
    have hpos : x.pos + 1 = x.buf.length := by omega
    rw [skip_el_step_cr_end hp hn, hb2]
    cases x with
    | mk bf st ps =>
      simp only [Bytes.bump]
      simp_all
  | case4 x hp ih =>
    intro hlen hdrop
    have hd := Bytes.drop_peek hp
    have hlt := Bytes.peek_lt hp
    have hlen2 : (Bytes.bump x).pos ≤ (Bytes.bump x).buf.length := by
      simp only [Bytes.bump]
      omega
    have hdrop2 : ((Bytes.bump x).buf.drop (Bytes.bump x).pos).drop
        (lineTermRun ((Bytes.bump x).buf.drop (Bytes.bump x).pos)) = [] ∨
        ((Bytes.bump x).buf.drop (Bytes.bump x).pos).drop
        (lineTermRun ((Bytes.bump x).buf.drop (Bytes.bump x).pos)) = [13] := by
      simp only [Bytes.bump]
      rw [hd, lineTermRun_lf, List.drop_succ_cons] at hdrop
      exact hdrop
    have hres := ih hlen2 hdrop2
    rw [skip_el_step_lf hp, hres]
    simp only [Bytes.bump]
  | case5 x val h13v h10v hp =>
    intro hlen hdrop
    have hd := Bytes.drop_peek hp
    have hv13 : val ≠ 13 := fun h => h13v h
    have hv10 : val ≠ 10 := fun h => h10v h
    rw [hd, lineTermRun_other _ hv13 hv10, List.drop_zero] at hdrop
    rcases hdrop with hdrop | hdrop
    · exact absurd hdrop (List.cons_ne_nil _ _)
    · have h1 := (List.cons.injEq _ _ _ _ ▸ hdrop).1
      exact absurd h1 hv13
  | case6 x hp =>
    intro hlen hdrop
    have hpl := Bytes.peek_none_le hp
    have heq : x.pos = x.buf.length := le_antisymm hlen hpl
    rw [skip_el_step_none hp]
    cases x with
    | mk bf st ps => simp_all

theorem skip_el_newline :
    ∀ (b : Bytes), b.pos ≤ b.buf.length →
    ∀ (d : Nat) (t : List Nat),
      (b.buf.drop b.pos).drop (lineTermRun (b.buf.drop b.pos)) =
        13 :: d :: t →
      d ≠ 10 →
      skip_empty_lines b = Except.error Error.NewLine := by
  intro b
  induction b using skip_empty_lines.induct with
  | case1 x hp b2 hn ih =>
    intro hlen d t hdrop hd10
    obtain ⟨hp2, hb2⟩ := Bytes.next_some hn
    subst hb2
    have hd1 := Bytes.drop_peek hp
    have hd2 : x.buf.drop (x.pos + 1) = 10 :: x.buf.drop (x.pos + 2) := by
      have h := Bytes.drop_peek hp2
      simpa [Bytes.bump] using h
    have hd : x.buf.drop x.pos = 13 :: 10 :: x.buf.drop (x.pos + 2) := by
      rw [hd1, hd2]
    have hlt2 : x.pos + 1 < x.buf.length := by
      have h := Bytes.peek_lt hp2
      simpa [Bytes.bump] using h
    have hlen2 : (Bytes.bump (Bytes.bump x)).pos ≤
        (Bytes.bump (Bytes.bump x)).buf.length := by
      simp only [Bytes.bump]
      omega
    have hdrop2 : ((Bytes.bump (Bytes.bump x)).buf.drop
          (Bytes.bump (Bytes.bump x)).pos).drop
        (lineTermRun ((Bytes.bump (Bytes.bump x)).buf.drop
          (Bytes.bump (Bytes.bump x)).pos)) = 13 :: d :: t := by
      simp only [Bytes.bump]
      rw [hd, lineTermRun_crlf, List.drop_succ_cons, List.drop_succ_cons]
        at hdrop
      exact hdrop
    have hres := ih hlen2 d t hdrop2 hd10
    rw [skip_el_step_crlf hp hn, hres]
  | case2 x hp val snd hval hn =>
    intro hlen d t hdrop hd10
    exact skip_el_step_cr_bad hp hn (fun h => hval h)
  | case3 x hp b2 hn =>
    intro hlen d t hdrop hd10
    obtain ⟨hp2, hb2⟩ := Bytes.next_none hn
    have hd1 := Bytes.drop_peek hp
    have hd2 : x.buf.drop (x.pos + 1) = [] := by
      have h := Bytes.drop_none hp2
      simpa [Bytes.bump] using h
    have hd : x.buf.drop x.pos = [13] := by
      rw [hd1, hd2]
    rw [hd, lineTermRun_cr_nil, List.drop_zero] at hdrop
    have h2 := (List.cons.injEq _ _ _ _ ▸ hdrop).2
    exact absurd h2.symm (List.cons_ne_nil _ _)
  | case4 x hp ih =>
    intro hlen d t hdrop hd10
    have hd := Bytes.drop_peek hp
    have hlt := Bytes.peek_lt hp
    have hlen2 : (Bytes.bump x).pos ≤ (Bytes.bump x).buf.length := by
      simp only [Bytes.bump]
      omega
    have hdrop2 : ((Bytes.bump x).buf.drop (Bytes.bump x).pos).drop
        (lineTermRun ((Bytes.bump x).buf.drop (Bytes.bump x).pos)) =
        13 :: d :: t := by
      simp only [Bytes.bump]
      rw [hd, lineTermRun_lf, List.drop_succ_cons] at hdrop
      exact hdrop
    have hres := ih hlen2 d t hdrop2 hd10
    rw [skip_el_step_lf hp, hres]
  | case5 x val h13v h10v hp =>
    intro hlen d t hdrop hd10
    have hd := Bytes.drop_peek hp
    have hv13 : val ≠ 13 := fun h => h13v h
    have hv10 : val ≠ 10 := fun h => h10v h
    rw [hd, lineTermRun_other _ hv13 hv10, List.drop_zero] at hdrop
    have h1 := (List.cons.injEq _ _ _ _ ▸ hdrop).1
    exact absurd h1 hv13
  | case6 x hp =>
    intro hlen d t hdrop hd10
    have hd := Bytes.drop_none hp
    rw [hd] at hdrop
    simp at hdrop

/-- C2: `skip_empty_lines` consumes the maximal leading run of line
terminators (lone `\n`, or `\r\n`): if a byte that is neither `\r`
nor `\n` follows the run it reports `Complete` with the cursor on
that byte and the slice re-marked there; if the buffer ends exactly
at the end of the run it reports `Partial`; if a consumed `\r` is
followed by a byte other than `\n` it fails definitively with the
bad-line-ending reason `Error.NewLine`. -/
theorem skip_empty_lines_spec (b : Bytes) (hlen : b.pos ≤ b.buf.length) :
    (∀ c t,
      (b.buf.drop b.pos).drop (lineTermRun (b.buf.drop b.pos)) = c :: t →
      c ≠ 13 → c ≠ 10 →
      skip_empty_lines b = Except.ok (Status.Complete (),
        { buf := b.buf, start := b.pos + lineTermRun (b.buf.drop b.pos),
          pos := b.pos + lineTermRun (b.buf.drop b.pos) })) ∧
    ((b.buf.drop b.pos).drop (lineTermRun (b.buf.drop b.pos)) = [] →
      skip_empty_lines b = Except.ok (Status.Partial,
        { buf := b.buf, start := b.start, pos := b.buf.length })) ∧
    (∀ d t,
      (b.buf.drop b.pos).drop (lineTermRun (b.buf.drop b.pos)) =
        13 :: d :: t →
      d ≠ 10 →
      skip_empty_lines b = Except.error Error.NewLine) :=
  ⟨skip_el_complete b hlen,
   fun h => skip_el_partial b hlen (Or.inl h),
   skip_el_newline b hlen⟩

/-- Witness for C2 at the buffer `[13, 10, 65]` (`\r\n` then `A`):
the two-byte terminator run is consumed, the cursor stops on `A` at
position 2 and the slice is re-marked there. -/
theorem skip_empty_lines_spec_witness :
    skip_empty_lines { buf := [13, 10, 65], start := 0, pos := 0 } =
      Except.ok (Status.Complete (),
        { buf := [13, 10, 65], start := 2, pos := 2 }) := by
  have h := (skip_empty_lines_spec { buf := [13, 10, 65], start := 0, pos := 0 }
    (by decide)).1 65 [] (by decide) (by decide) (by decide)
  exact h.trans (by rfl)

theorem TermRun_lineTermRun_append_cr {r : List Nat} (hr : TermRun r) :
    lineTermRun (r ++ [13]) = r.length := by
  induction hr with
  | nil => rfl
  | lf hr ih =>
    rw [List.cons_append, lineTermRun_lf, ih]
    simp
  | crlf hr ih =>
    rw [List.cons_append, List.cons_append, lineTermRun_crlf, ih]
    simp


/-- C3: if the remaining buffer content at the cursor is a (possibly
empty) run of valid line terminators followed by a single `\r` that
is the very last byte of the buffer, `skip_empty_lines` reports
`Partial` — not a definitive failure. -/
theorem skip_empty_lines_trailing_cr (b : Bytes) (r : List Nat)
    (hlen : b.pos ≤ b.buf.length) (hr : TermRun r)
    (hbuf : b.buf.drop b.pos = r ++ [13]) :
    skip_empty_lines b = Except.ok (Status.Partial,
      { buf := b.buf, start := b.start, pos := b.buf.length }) := by
  apply skip_el_partial b hlen
  right
  rw [hbuf, TermRun_lineTermRun_append_cr hr, List.drop_left]

/-- Witness for C3 at the buffer `[10, 13]` (`\n` then a final `\r`):
the result is `Partial` with the cursor at the end of the buffer. -/
theorem skip_empty_lines_trailing_cr_witness :
    skip_empty_lines { buf := [10, 13], start := 0, pos := 0 } =
      Except.ok (Status.Partial,
        { buf := [10, 13], start := 0, pos := 2 }) := by
  have h := skip_empty_lines_trailing_cr
    { buf := [10, 13], start := 0, pos := 0 } [10] (by decide)
    (TermRun.lf TermRun.nil) (by rfl)
  exact h.trans (by rfl)

theorem Bytes.peek_append {b : Bytes} {c : Nat} (ext : List Nat)
    (h : b.peek = some c) :
    Bytes.peek { buf := b.buf ++ ext, start := b.start, pos := b.pos } =
      some c := by
  have hlt := Bytes.peek_lt h
  unfold Bytes.peek at h ⊢
  simp only
  rw [List.getElem?_append, if_pos hlt]
  exact h

theorem skip_spaces_append :
    ∀ (x : Bytes) (ext : List Nat) (st : Bytes),
      skip_spaces x = Except.ok (Status.Complete (), st) →
      skip_spaces { buf := x.buf ++ ext, start := x.start, pos := x.pos } =
        Except.ok (Status.Complete (),
          { buf := x.buf ++ ext, start := st.start, pos := st.pos }) := by
  intro x
  induction x using skip_spaces.induct with
  | case1 x hp ih =>
    intro ext st h
    rw [skip_spaces_step_space hp] at h
    have hpx := Bytes.peek_append ext hp
    rw [skip_spaces_step_space hpx]
    have hres := ih ext st h
    simpa [Bytes.bump] using hres
  | case2 x val hv hp =>
    intro ext st h
    have hval : val ≠ 32 := fun hh => hv hh
    rw [skip_spaces_step_other hp hval] at h
    simp only [Bytes.slice] at h
    cases h
    have hpx := Bytes.peek_append ext hp
    rw [skip_spaces_step_other hpx hval]
    simp [Bytes.slice]
  | case3 x hp =>
    intro ext st h
    rw [skip_spaces_step_none hp] at h
    simp at h

theorem skip_el_append :
    ∀ (x : Bytes) (ext : List Nat) (st : Bytes),
      skip_empty_lines x = Except.ok (Status.Complete (), st) →
      skip_empty_lines
          { buf := x.buf ++ ext, start := x.start, pos := x.pos } =
        Except.ok (Status.Complete (),
          { buf := x.buf ++ ext, start := st.start, pos := st.pos }) := by
  intro x
  induction x using skip_empty_lines.induct with
  | case1 x hp b2 hn ih =>
    intro ext st h
    obtain ⟨hp2, hb2⟩ := Bytes.next_some hn
    subst hb2
    rw [skip_el_step_crlf hp hn] at h
    have hpx := Bytes.peek_append ext hp
    have hpx2 : Bytes.peek (Bytes.bump
        { buf := x.buf ++ ext, start := x.start, pos := x.pos }) =
        some 10 := by
      have h2 := Bytes.peek_append (b := Bytes.bump x) ext hp2
      simpa [Bytes.bump] using h2
    have hnx : (Bytes.bump
        { buf := x.buf ++ ext, start := x.start, pos := x.pos }).next =
        (some 10, Bytes.bump (Bytes.bump
          { buf := x.buf ++ ext, start := x.start, pos := x.pos })) := by
      unfold Bytes.next
      rw [hpx2]
    rw [skip_el_step_crlf hpx hnx]
    have hres := ih ext st h
    simpa [Bytes.bump] using hres
  | case2 x hp val snd hval hn =>
    intro ext st h
    rw [skip_el_step_cr_bad hp hn (fun hh => hval hh)] at h
    simp at h
  | case3 x hp b2 hn =>
    intro ext st h
    rw [skip_el_step_cr_end hp hn] at h
    simp at h
  | case4 x hp ih =>
    intro ext st h
    rw [skip_el_step_lf hp] at h
    have hpx := Bytes.peek_append ext hp
    rw [skip_el_step_lf hpx]
    have hres := ih ext st h
    simpa [Bytes.bump] using hres
  | case5 x val h13v h10v hp =>
    intro ext st h
    have hv13 : val ≠ 13 := fun hh => h13v hh
    have hv10 : val ≠ 10 := fun hh => h10v hh
    rw [skip_el_step_other hp hv13 hv10] at h
    simp only [Bytes.slice] at h
    cases h
    have hpx := Bytes.peek_append ext hp
    rw [skip_el_step_other hpx hv13 hv10]
    simp [Bytes.slice]
  | case6 x hp =>
    intro ext st h
    rw [skip_el_step_none hp] at h
    simp at h

/-- C8: extending the buffer never changes an already-complete
outcome of a skip primitive: if `skip_spaces` (respectively
`skip_empty_lines`) run from the start of `l` reports `Complete` in
end state `st`, then run from the start of `l ++ ext` it again
reports `Complete` with the same cursor position and mark. -/
theorem skip_complete_extend (l ext : List Nat) (st : Bytes) :
    (skip_spaces { buf := l, start := 0, pos := 0 } =
        Except.ok (Status.Complete (), st) →
      skip_spaces { buf := l ++ ext, start := 0, pos := 0 } =
        Except.ok (Status.Complete (),
          { buf := l ++ ext, start := st.start, pos := st.pos })) ∧
    (skip_empty_lines { buf := l, start := 0, pos := 0 } =
        Except.ok (Status.Complete (), st) →
      skip_empty_lines { buf := l ++ ext, start := 0, pos := 0 } =
        Except.ok (Status.Complete (),
          { buf := l ++ ext, start := st.start, pos := st.pos })) :=
  ⟨skip_spaces_append { buf := l, start := 0, pos := 0 } ext st,
   skip_el_append { buf := l, start := 0, pos := 0 } ext st⟩

/-- Witness for C8: on `[65]` (`A`) both primitives complete at once
with the cursor still at 0, and the same holds after appending `[66]`
(`B`). -/
theorem skip_complete_extend_witness :
    skip_spaces { buf := [65, 66], start := 0, pos := 0 } =
      Except.ok (Status.Complete (),
        { buf := [65, 66], start := 0, pos := 0 }) ∧
    skip_empty_lines { buf := [65, 66], start := 0, pos := 0 } =
      Except.ok (Status.Complete (),
        { buf := [65, 66], start := 0, pos := 0 }) := by
  have h := skip_complete_extend [65] [66]
    { buf := [65], start := 0, pos := 0 }
  constructor
  · exact h.1 (by
      rw [skip_spaces_step_other
        (show Bytes.peek { buf := [65], start := 0, pos := 0 } = some 65
          from rfl) (by decide)]
      rfl)
  · exact h.2 (by
      rw [skip_el_step_other
        (show Bytes.peek { buf := [65], start := 0, pos := 0 } = some 65
          from rfl) (by decide) (by decide)]
      rfl)

theorem bumpChecked_lt {x : Bytes} (hlt : x.pos < x.buf.length) :
    Bytes.bumpChecked x = some (Bytes.bump x) := by
  unfold Bytes.bumpChecked
  rw [if_pos hlt]

theorem ssc_step_space {x : Bytes} (hp : x.peek = some 32) :
    skip_spaces_checked x = skip_spaces_checked (Bytes.bump x) := by
  have hlt := Bytes.peek_lt hp
  rw [skip_spaces_checked]
  split
  · split
    · rename_i hbc
      rw [bumpChecked_lt hlt] at hbc
      cases hbc
    · rename_i b1 hbc
      rw [bumpChecked_lt hlt] at hbc
      cases hbc
      rfl
  · rename_i c hc hpeek
    rw [hp] at hpeek
    cases hpeek
    exact absurd rfl hc
  · rename_i hpeek
    rw [hp] at hpeek
    cases hpeek

theorem ssc_step_other {x : Bytes} {c : Nat} (hp : x.peek = some c)
    (hc : c ≠ 32) :
    skip_spaces_checked x =
      some (Except.ok (Status.Complete (), (Bytes.slice x).2)) := by
  rw [skip_spaces_checked]
  split
  · rename_i hpeek
    rw [hp] at hpeek
    cases hpeek
    exact absurd rfl hc
  · rfl
  · rename_i hpeek
    rw [hp] at hpeek
    cases hpeek

theorem ssc_step_none {x : Bytes} (hp : x.peek = none) :
    skip_spaces_checked x = some (Except.ok (Status.Partial, x)) := by
  rw [skip_spaces_checked]
  split
  · rename_i hpeek
    rw [hp] at hpeek
    cases hpeek
  · rename_i c hc hpeek
    rw [hp] at hpeek
    cases hpeek
  · rfl

theorem selc_step_crlf {x b2 : Bytes} (hp : x.peek = some 13)
    (hn : (Bytes.bump x).next = (some 10, b2)) :
    skip_empty_lines_checked x = skip_empty_lines_checked b2 := by
  have hlt := Bytes.peek_lt hp
  rw [skip_empty_lines_checked]
  split
  · split
    · rename_i hbc
      rw [bumpChecked_lt hlt] at hbc
      cases hbc
    · rename_i b1 hbc
      rw [bumpChecked_lt hlt] at hbc
      cases hbc
      split
      · rename_i b2' hnext
        rw [hn] at hnext
        cases hnext
        rfl
      · rename_i c snd hc hnext
        rw [hn] at hnext
        cases hnext
        exact absurd rfl hc
      · rename_i b2' hnext
        rw [hn] at hnext
        cases hnext
  · rename_i hpeek
    rw [hp] at hpeek
    cases hpeek
  · rename_i c h13 h10 hpeek
    rw [hp] at hpeek
    cases hpeek
    exact absurd rfl h13
  · rename_i hpeek
    rw [hp] at hpeek
    cases hpeek

theorem selc_step_cr_bad {x b' : Bytes} {c : Nat} (hp : x.peek = some 13)
    (hn : (Bytes.bump x).next = (some c, b')) (hc : c ≠ 10) :
    skip_empty_lines_checked x = some (Except.error Error.NewLine) := by
  have hlt := Bytes.peek_lt hp
  rw [skip_empty_lines_checked]
  split
  · split
    · rename_i hbc
      rw [bumpChecked_lt hlt] at hbc
      cases hbc
    · rename_i b1 hbc
      rw [bumpChecked_lt hlt] at hbc
      cases hbc
      split
      · rename_i b2' hnext
        rw [hn] at hnext
        cases hnext
        exact absurd rfl hc
      · rfl
      · rename_i b2' hnext
        rw [hn] at hnext
        cases hnext
  · rename_i hpeek
    rw [hp] at hpeek
    cases hpeek
  · rename_i d h13 h10 hpeek
    rw [hp] at hpeek
    cases hpeek
    exact absurd rfl h13
  · rename_i hpeek
    rw [hp] at hpeek
    cases hpeek

theorem selc_step_cr_end {x b2 : Bytes} (hp : x.peek = some 13)
    (hn : (Bytes.bump x).next = (none, b2)) :
    skip_empty_lines_checked x =
      some (Except.ok (Status.Partial, b2)) := by
  have hlt := Bytes.peek_lt hp
  rw [skip_empty_lines_checked]
  split
  · split
    · rename_i hbc
      rw [bumpChecked_lt hlt] at hbc
      cases hbc
    · rename_i b1 hbc
      rw [bumpChecked_lt hlt] at hbc
      cases hbc
      split
      · rename_i b2' hnext
        rw [hn] at hnext
        cases hnext
      · rename_i c snd hc hnext
        rw [hn] at hnext
        cases hnext
      · rename_i b2' hnext
        rw [hn] at hnext
        cases hnext
        rfl
  · rename_i hpeek
    rw [hp] at hpeek
    cases hpeek
  · rename_i c h13 h10 hpeek
    rw [hp] at hpeek
    cases hpeek
    exact absurd rfl h13
  · rename_i hpeek
    rw [hp] at hpeek
    cases hpeek

theorem selc_step_lf {x : Bytes} (hp : x.peek = some 10) :
    skip_empty_lines_checked x =
      skip_empty_lines_checked (Bytes.bump x) := by
  have hlt := Bytes.peek_lt hp
  rw [skip_empty_lines_checked]
  split
  · rename_i hpeek
    rw [hp] at hpeek
    cases hpeek
  · split
    · rename_i hbc
      rw [bumpChecked_lt hlt] at hbc
      cases hbc
    · rename_i b1 hbc
      rw [bumpChecked_lt hlt] at hbc
      cases hbc
      rfl
  · rename_i c h13 h10 hpeek
    rw [hp] at hpeek
    cases hpeek
    exact absurd rfl h10
  · rename_i hpeek
    rw [hp] at hpeek
    cases hpeek

theorem selc_step_other {x : Bytes} {c : Nat} (hp : x.peek = some c)
    (h13 : c ≠ 13) (h10 : c ≠ 10) :
    skip_empty_lines_checked x =
      some (Except.ok (Status.Complete (), (Bytes.slice x).2)) := by
  rw [skip_empty_lines_checked]
  split
  · rename_i hpeek
    rw [hp] at hpeek
    cases hpeek
    exact absurd rfl h13
  · rename_i hpeek
    rw [hp] at hpeek
    cases hpeek
    exact absurd rfl h10
  · rfl
  · rename_i hpeek
    rw [hp] at hpeek
    cases hpeek

theorem selc_step_none {x : Bytes} (hp : x.peek = none) :
    skip_empty_lines_checked x = some (Except.ok (Status.Partial, x)) := by
  rw [skip_empty_lines_checked]
  split
  · rename_i hpeek
    rw [hp] at hpeek
    cases hpeek
  · rename_i hpeek
    rw [hp] at hpeek
    cases hpeek
  · rename_i c h13 h10 hpeek
    rw [hp] at hpeek
    cases hpeek
  · rfl

theorem skip_el_checked_eq :
    ∀ (b : Bytes),
      skip_empty_lines_checked b = some (skip_empty_lines b) := by
  intro b
  induction b using skip_empty_lines.induct with
  | case1 x hp b2 hn ih =>
    rw [skip_el_step_crlf hp hn, selc_step_crlf hp hn]
    exact ih
  | case2 x hp val snd hval hn =>
    rw [skip_el_step_cr_bad hp hn (fun h => hval h),
        selc_step_cr_bad hp hn (fun h => hval h)]
  | case3 x hp b2 hn =>
    rw [skip_el_step_cr_end hp hn, selc_step_cr_end hp hn]
  | case4 x hp ih =>
    rw [skip_el_step_lf hp, selc_step_lf hp]
    exact ih
  | case5 x val h13v h10v hp =>
    rw [skip_el_step_other hp (fun h => h13v h) (fun h => h10v h),
        selc_step_other hp (fun h => h13v h) (fun h => h10v h)]
  | case6 x hp =>
    rw [skip_el_step_none hp, selc_step_none hp]

theorem skip_spaces_checked_eq :
    ∀ (b : Bytes),
      skip_spaces_checked b = some (skip_spaces b) := by
  intro b
  induction b using skip_spaces.induct with
  | case1 x hp ih =>
    rw [skip_spaces_step_space hp, ssc_step_space hp]
    exact ih
  | case2 x val hv hp =>
    rw [skip_spaces_step_other hp (fun h => hv h),
        ssc_step_other hp (fun h => hv h)]
  | case3 x hp =>
    rw [skip_spaces_step_none hp, ssc_step_none hp]

/-- C9: in `skip_empty_lines` and `skip_spaces` every unguarded
cursor advance happens only after a successful peek, so replacing
each unguarded advance by a bounds-guarded one (which fails with
`none` on any out-of-bounds advance) never changes the result: no
out-of-bounds access is reachable, for any input cursor whose
position is within the buffer. -/
theorem skip_no_oob (b : Bytes) (hlen : b.pos ≤ b.buf.length) :
    skip_empty_lines_checked b = some (skip_empty_lines b) ∧
    skip_spaces_checked b = some (skip_spaces b) :=
  ⟨skip_el_checked_eq b, skip_spaces_checked_eq b⟩

/-- Witness for C9 at the empty buffer: both guarded scans agree with
the unguarded ones and report `Partial`. -/
theorem skip_no_oob_witness :
    skip_empty_lines_checked { buf := [], start := 0, pos := 0 } =
      some (Except.ok (Status.Partial,
        { buf := [], start := 0, pos := 0 })) ∧
    skip_spaces_checked { buf := [], start := 0, pos := 0 } =
      some (Except.ok (Status.Partial,
        { buf := [], start := 0, pos := 0 })) := by
  have h := skip_no_oob { buf := [], start := 0, pos := 0 } (by decide)
  exact ⟨h.1.trans (congrArg some (skip_el_step_none rfl)),
         h.2.trans (congrArg some (skip_spaces_step_none rfl))⟩

set_option maxRecDepth 8192 in
/-- C5: for every byte, the method classifier (with its
uppercase-letter fast path), the header-name classifier and the pure
`TOKEN_MAP` table lookup agree — the fast path has no behavioral
difference and the method and header-name grammars share the same
tchar set. -/
theorem method_header_name_table_agree :
    ∀ b, b < 256 →
      is_method_token b = TOKEN_MAP.getD b false ∧
      is_header_name_token b = TOKEN_MAP.getD b false := by
  decide

/-- Witness for C5 at byte `G` (0x47): the fast path, the table and
the header-name classifier all accept it. -/
theorem method_header_name_table_agree_witness :
    is_method_token 71 = TOKEN_MAP.getD 71 false ∧
    is_header_name_token 71 = TOKEN_MAP.getD 71 false :=
  method_header_name_table_agree 71 (by decide)

set_option maxRecDepth 8192 in
/-- C6: a byte is a header-value byte exactly when it is tab (0x09),
in 0x20–0x7E, or in 0x80–0xFF; in particular 0x01, `\r`, `\n` and
DEL are rejected. -/
theorem header_value_token_charset :
    (∀ b, b < 256 →
      (is_header_value_token b = true ↔
        (b = 9 ∨ (32 ≤ b ∧ b ≤ 126) ∨ (128 ≤ b ∧ b ≤ 255)))) ∧
    is_header_value_token 1 = false ∧
    is_header_value_token 13 = false ∧
    is_header_value_token 10 = false ∧
    is_header_value_token 127 = false := by
  decide

/-- Witness for C6 at the high byte 0x80: it is accepted as a
header-value byte. -/
theorem header_value_token_charset_witness :
    is_header_value_token 128 = true :=
  (header_value_token_charset.1 128 (by decide)).mpr
    (Or.inr (Or.inr (by decide)))

set_option maxRecDepth 8192 in
/-- C7: a byte is a URI byte exactly when it is in 0x21–0x7E or
0x80–0xFF; space, DEL and the ASCII control bytes are rejected. -/
theorem uri_token_charset :
    ∀ b, b < 256 →
      (is_uri_token b = true ↔
        ((33 ≤ b ∧ b ≤ 126) ∨ (128 ≤ b ∧ b ≤ 255))) := by
  decide

/-- Witness for C7 at the space byte 0x20: it is rejected as a URI
byte. -/
theorem uri_token_charset_witness :
    is_uri_token 32 = false := by
  have h := uri_token_charset 32 (by decide)
  revert h
  decide

/-- C10: for every `Status` value, `is_complete` is the negation of
`is_partial`; `unwrap` returns the carried value on `Complete` and
(modelled as `none`) panics exactly on `Partial`. -/
theorem status_complete_negation_unwrap (T : Type) (s : Status T) :
    ( Status.is_complete s = !( Status.is_partial s)) ∧
    (∀ t : T, s = Status.Complete t → Status.unwrap s = some t) ∧
    ( Status.unwrap s = none ↔ s = Status.Partial) := by
  cases s with
  | Complete t =>
    refine ⟨rfl, ?_, ?_⟩
    · intro t' ht
      cases ht
      rfl
    · constructor
      · intro h
        exact Option.noConfusion h
      · intro h
        exact Status.noConfusion h
  | Partial =>
    refine ⟨rfl, ?_, ?_⟩
    · intro t' ht
      exact Status.noConfusion ht
    · constructor
      · intro _
        rfl
      · intro _
        rfl

/-- Witness for C10 at `Status Nat`: `unwrap` yields the carried 3 on
`Complete 3` and `none` on `Partial`. -/
theorem status_complete_negation_unwrap_witness :
    Status.unwrap (Status.Complete 3) = some 3 ∧
    Status.unwrap (Status.Partial : Status Nat) = none :=
  ⟨(status_complete_negation_unwrap Nat (Status.Complete 3)).2.1 3 rfl,
   (status_complete_negation_unwrap Nat
     (Status.Partial : Status Nat)).2.2.mpr rfl⟩

/-- C1: `parse_request` returns, for every buffer and header
capacity, exactly one of a definitive failure with a reason code,
`Partial`, or `Complete` carrying the count of bytes consumed from
the start of the buffer, alongside the `Request` populated up to the
point parsing stopped; and on `GET / HTTP/1.1\r\n\r\n` it returns
`Complete` with method `GET`, path `/`, minor version 1, zero
headers, and consumed = 18 = the full buffer length. -/
theorem parse_request_spec :
    (∀ (buf : List Nat) (capacity : Nat),
      (∃ e, (parse_request buf capacity).1 = Except.error e) ∨
      (parse_request buf capacity).1 = Except.ok Status.Partial ∨
      (∃ n, (parse_request buf capacity).1 =
        Except.ok (Status.Complete n))) ∧
    (∀ capacity : Nat,
      parse_request
        [71, 69, 84, 32, 47, 32, 72, 84, 84, 80, 47, 49, 46, 49,
         13, 10, 13, 10] capacity =
      (Except.ok (Status.Complete 18),
       { method := some [71, 69, 84], path := some [47],
         version := some 1, headers := [] })) := by
  constructor
  · intro buf capacity
    cases h : (parse_request buf capacity).1 with
    | error e => exact Or.inl ⟨e, rfl⟩
    | ok s =>
      cases s with
      | Partial => exact Or.inr (Or.inl rfl)
      | Complete n => exact Or.inr (Or.inr ⟨n, rfl⟩)
  · intro capacity
    have h1 : skip_empty_lines
        { buf := [71, 69, 84, 32, 47, 32, 72, 84, 84, 80, 47, 49, 46, 49,
                  13, 10, 13, 10],
          start := 0, pos := 0 } =
        Except.ok (Status.Complete (),
          { buf := [71, 69, 84, 32, 47, 32, 72, 84, 84, 80, 47, 49, 46, 49,
                    13, 10, 13, 10],
            start := 0, pos := 0 }) := by
      rw [skip_el_step_other (show Bytes.peek
        { buf := [71, 69, 84, 32, 47, 32, 72, 84, 84, 80, 47, 49, 46, 49,
                  13, 10, 13, 10],
          start := 0, pos := 0 } = some 71 from rfl) (by decide) (by decide)]
      rfl
    have h2 : parse_headers capacity ([] : List (List Nat × List Nat))
        [13, 10] = (Except.ok (Status.Complete ([] : List Nat)), []) := by
      rw [parse_headers]
    simp only [parse_request, h1]
    simp [spanWhile, expectBytes, parseNewline, emptyRequest, h2,
      show is_method_token 71 = true from by decide,
      show is_method_token 69 = true from by decide,
      show is_method_token 84 = true from by decide,
      show is_method_token 32 = false from by decide,
      show is_uri_token 47 = true from by decide,
      show is_uri_token 32 = false from by decide]

end Httparse
